import Mathlib

/-!
Verification of the `bb-csproj-version-checker` pipeline.

The program (src/main.rs) enumerates the repositories of a Bitbucket project,
skips those whose slug starts with an optional ignore prefix, lists the
`.csproj` files of each remaining repository, fetches all of those files
concurrently (a join-all barrier; failed fetches are dropped), extracts
`PackageReference` declarations line by line, keeps only those whose package
name equals the configured target package, appends the survivors to an
append-only report, and finally either prints the rendered report to the
console or writes it to `<name>.txt` / `<name>.md`.

This file gives a shallow embedding of that pipeline and proves the spec's
claims about it.  The remote API is modelled as an environment of fallible
query functions; the concurrent fetch phase is modelled by an explicit
completion schedule (an arbitrary permutation of the task indices) which is
joined back into issue order, exactly as `futures::future::join_all` does.
-/

/-- A repository, identified by its slug (models `models::Repo`). -/
structure Repo where
  slug : String
deriving Repr, DecidableEq

/-- The text content of a fetched file, as an ordered sequence of lines. -/
structure FileContent where
  lines : List String
deriving Repr, DecidableEq

/-- A fetched repository file: its path plus its content (models `models::RepoFile`). -/
structure RepoFile where
  name : String
  content : FileContent
deriving Repr, DecidableEq

/-- A (package name, version) pair extracted from one line
(models `models::PackageReference`). -/
structure PackageReference where
  package_name : String
  version : String
deriving Repr, DecidableEq

/-- A `PackageReference` annotated with its repository slug and file path
(models `models::RepoPackageReference`). -/
structure RepoPackageReference where
  repo : String
  file : String
  reference : PackageReference
deriving Repr, DecidableEq

/-- The accumulated report: an ordered collection of records
(models `report::PackageVersionReport`). -/
structure PackageVersionReport where
  repo_package_references : List RepoPackageReference := []
deriving Repr, DecidableEq

instance : Inhabited PackageVersionReport := ⟨{}⟩

/-- Appending a batch of records to the end of the report, as
`report.repo_package_references.extend_from_slice(&r)` does in `main`. -/
def PackageVersionReport.appendRefs (rep : PackageVersionReport)
    (rs : List RepoPackageReference) : PackageVersionReport :=
  { repo_package_references := rep.repo_package_references ++ rs }

/-- Output destination selector (models `OutputKind` in main.rs). -/
inductive OutputKind
  | console
  | txt
  | md
deriving Repr, DecidableEq

/-- The already-validated configuration values `main` consumes
(mirrors the fields of `Args` that the pipeline uses). -/
structure Config where
  package : String
  ignoreRepoPrefix : Option String
  outputKind : OutputKind
  outputFileName : Option String

/-- Model of Rust's `str::starts_with` on whole strings: character-prefix
test. -/
def startsWithStr (s p : String) : Bool :=
  p.data.isPrefixOf s.data

/-- The ignore test from main.rs lines 64-69: a repo is skipped iff an
ignore prefix is configured and the slug starts with it. -/
def shouldIgnore (ignoreRepoPrefix : Option String) (slug : String) : Bool :=
  match ignoreRepoPrefix with
  | some p => startsWithStr slug p
  | none => false

/-! ### The Reference Extractor

`PackageReference::try_from` lives in the crate's `models` module, whose
source is not part of the repository snapshot; the definitions below are
therefore modelled from the spec (§4.2): the extractor recognises, inside one
line, an XML-attribute-style declaration embedding `Include` and `Version`
attributes, tolerant of attribute order and of surrounding whitespace;
a missing or empty name or version, or a line without the construct,
yields no match. -/

/-- Strip a literal character prefix, returning the remainder on success. -/
def stripLit : List Char → List Char → Option (List Char)
  | [], cs => some cs
  | _ :: _, [] => none
  | p :: ps, c :: cs => if c = p then stripLit ps cs else none

/-- Read characters up to (and consuming) the next double quote. -/
def takeQuoted : List Char → Option (List Char × List Char)
  | [] => none
  | c :: cs =>
    if c = '"' then some ([], cs)
    else (takeQuoted cs).map (fun r => (c :: r.1, r.2))

/-- Skip space characters. -/
def skipSpaces (cs : List Char) : List Char :=
  cs.dropWhile (fun c => c = ' ')

/-- The characters of the `Include` attribute keyword. -/
def includeKey : List Char := ['I', 'n', 'c', 'l', 'u', 'd', 'e']

/-- The characters of the `Version` attribute keyword. -/
def versionKey : List Char := ['V', 'e', 'r', 's', 'i', 'o', 'n']

/-- The characters of the declaration's opening tag. -/
def tagOpen : List Char :=
  ['<', 'P', 'a', 'c', 'k', 'a', 'g', 'e', 'R', 'e', 'f', 'e', 'r', 'e', 'n', 'c', 'e']

/-- The characters of the declaration's self-closing tag end. -/
def tagClose : List Char := ['/', '>']

/-- Parse one `key="value"` attribute with the given keyword. -/
def parseAttr (key : List Char) (cs : List Char) : Option (List Char × List Char) :=
  match stripLit (key ++ ['=', '"']) cs with
  | none => none
  | some rest => takeQuoted rest

/-- Modelled from the spec: finish parsing a declaration after both
attributes were read — expect the self-closing tag end, allow surrounding
whitespace, and reject an empty name or version. -/
def finishDecl (name ver cs : List Char) : Option (List Char × List Char) :=
  match stripLit tagClose (skipSpaces cs) with
  | none => none
  | some rest =>
    if skipSpaces rest = [] then
      if name = [] ∨ ver = [] then none else some (name, ver)
    else none

/-- Modelled from the spec: the line-local dependency-declaration parser of
`PackageReference::try_from` (missing `models` module).  A line matches iff,
up to surrounding whitespace, it is `<PackageReference A B />` where `A` and
`B` are the `Include="…"` and `Version="…"` attributes in either order, and
both captured values are non-empty. -/
def parseDecl (line : List Char) : Option (List Char × List Char) :=
  match stripLit tagOpen (skipSpaces line) with
  | none => none
  | some cs =>
    let cs := skipSpaces cs
    match parseAttr includeKey cs with
    | some (n, cs) =>
      match parseAttr versionKey (skipSpaces cs) with
      | some (v, cs) => finishDecl n v cs
      | none => none
    | none =>
      match parseAttr versionKey cs with
      | some (v, cs) =>
        match parseAttr includeKey (skipSpaces cs) with
        | some (n, cs) => finishDecl n v cs
        | none => none
      | none => none

/-- Modelled from the spec: `PackageReference::try_from(line).ok()` — parse a
line into a `PackageReference`, or no match. -/
def PackageReference.tryFrom (line : String) : Option PackageReference :=
  (parseDecl line.data).map fun p =>
    { package_name := String.mk p.1, version := String.mk p.2 }

/-! ### The remote API environment

The `BitbucketClient` is abstracted as an environment of fallible queries:
`projectRepos` models `get_project_repos`, `filePaths` models
`get_paths_of_files_in_repo(project, slug, Some(".csproj"))`, and
`fileContent` models `get_repo_file_content(project, slug, path)`.  Errors
are abstract strings (the `anyhow::Error` payload). -/

structure Env where
  projectRepos : Except String (List Repo)
  filePaths : String → Except String (List String)
  fileContent : String → String → Except String FileContent

/-- One fetch task of the concurrent phase (main.rs lines 75-83): fetch a
file's content and wrap it into a `RepoFile` named after its path. -/
def fetchOne (env : Env) (slug f : String) : Except String RepoFile :=
  (env.fileContent slug f).map fun res => { name := f, content := res }

/-! ### The join-all barrier

`futures::future::join_all` runs all futures concurrently and returns their
results **in issue order**, regardless of completion order.  We model the
completion order as an explicit schedule `sched` (a permutation of the task
indices): tasks complete in schedule order, producing `(index, result)`
pairs, and the barrier reassembles the results by index. -/

/-- The `(index, result)` pairs produced as tasks complete, in completion
order. -/
def completions (f : Nat → α) (sched : List Nat) : List (Nat × α) :=
  sched.map fun i => (i, f i)

/-- Join-all: reassemble the completed results in issue order.  An index
that never completed (impossible for a permutation schedule) yields `none`. -/
def joinAll (f : Nat → α) (n : Nat) (sched : List Nat) : List (Option α) :=
  (List.range n).map fun i => (completions f sched).lookup i

/-- The concurrent fetch-and-drop-failures phase of main.rs lines 75-90:
issue one fetch per listed file, join all of them, and keep the successes in
issue order (`filter_map(|f| f.ok())`). -/
def fetchAll (env : Env) (slug : String) (files : List String) (sched : List Nat) :
    List RepoFile :=
  (joinAll (fun i => fetchOne env slug (files.getD i "")) files.length sched).filterMap
    fun o =>
      match o with
      | some (Except.ok f) => some f
      | _ => none

/-! ### Extraction and aggregation per repository -/

/-- The per-file extraction pipeline of main.rs lines 95-108: run every line
through the extractor, keep matches whose package name equals the target
package, and wrap each survivor with the repo slug and file name. -/
def fileReferences (package slug fname : String) (content : FileContent) :
    List RepoPackageReference :=
  ((content.lines.filterMap fun line => PackageReference.tryFrom line).filter
      fun pr => pr.package_name = package).map
    fun pr => { repo := slug, file := fname, reference := pr }

/-- All records one repository contributes, given its listed files and a
fetch-completion schedule (main.rs lines 92-111): files in listing order,
lines in file order. -/
def repoRecords (env : Env) (package slug : String) (files : List String)
    (sched : List Nat) : List RepoPackageReference :=
  (fetchAll env slug files sched).flatMap fun file =>
    fileReferences package slug file.name file.content

/-! ### The orchestrator -/

/-- The API calls a run issues after repository enumeration, used to state
that skipped repositories are never queried. -/
inductive ApiCall
  | listFiles (slug : String)
  | getFile (slug : String) (path : String)
deriving Repr, DecidableEq

/-- The calls issued while processing one non-skipped repository. -/
def repoCalls (slug : String) (files : List String) : List ApiCall :=
  ApiCall.listFiles slug :: files.map (ApiCall.getFile slug)

/-- The repository loop of main.rs lines 63-118, threading the mutable
report exactly as the Rust code does: skip ignored repos, propagate listing
errors with `?`, fetch concurrently, extract, and extend the report.  Also
returns the trace of API calls issued. -/
def processRepos (env : Env) (package : String) (ignoreRepoPrefix : Option String)
    (sched : String → List Nat) (report : PackageVersionReport) :
    List Repo → Except String (PackageVersionReport × List ApiCall)
  | [] => Except.ok (report, [])
  | repo :: rest =>
    if shouldIgnore ignoreRepoPrefix repo.slug then
      processRepos env package ignoreRepoPrefix sched report rest
    else
      match env.filePaths repo.slug with
      | Except.error e => Except.error e
      | Except.ok files =>
        let recs := repoRecords env package repo.slug files (sched repo.slug)
        match processRepos env package ignoreRepoPrefix sched
            (report.appendRefs recs) rest with
        | Except.error e => Except.error e
        | Except.ok (final, calls) =>
          Except.ok (final, repoCalls repo.slug files ++ calls)

/-- Modelled from the spec: the `Display` rendering of one record (the
`report` module's source is not in the snapshot); §4.3 requires a rendering
that is a pure function of the record. -/
def renderRecord (r : RepoPackageReference) : String :=
  r.repo ++ " | " ++ r.file ++ " | " ++ r.reference.package_name ++ " | " ++
    r.reference.version

/-- Modelled from the spec: `report.to_string()` — a deterministic rendering
listing the records in exactly their stored order (§4.3: no grouping, no
sorting, no deduplication at render time). -/
def renderReport (rep : PackageVersionReport) : String :=
  String.intercalate "\n" (rep.repo_package_references.map renderRecord)

/-- The effect the run delivers at the end: a console print or a file write. -/
inductive OutputAction
  | consolePrint (text : String)
  | writeFile (name : String) (text : String)
deriving Repr, DecidableEq

/-- The text an output action carries. -/
def OutputAction.text : OutputAction → String
  | OutputAction.consolePrint t => t
  | OutputAction.writeFile _ t => t

/-- The output dispatch of main.rs lines 120-128: each arm renders the
report (`report.to_string()`) and the core picks the destination and the
extension. -/
def outputFor (outputKind : OutputKind) (outputFileName : String)
    (rep : PackageVersionReport) : OutputAction :=
  match outputKind with
  | OutputKind.console => OutputAction.consolePrint (renderReport rep)
  | OutputKind.txt =>
    OutputAction.writeFile (outputFileName ++ ".txt") (renderReport rep)
  | OutputKind.md =>
    OutputAction.writeFile (outputFileName ++ ".md") (renderReport rep)

/-- The whole run (`main`): enumerate repositories (fatal on error), process
them in order, then deliver the rendered report.  Returns the final report,
the API-call trace and the delivered output action. -/
def run (env : Env) (cfg : Config) (sched : String → List Nat) :
    Except String (PackageVersionReport × List ApiCall × OutputAction) :=
  let outputFileName := cfg.outputFileName.getD "package-version-report"
  match env.projectRepos with
  | Except.error e => Except.error e
  | Except.ok repos =>
    match processRepos env cfg.package cfg.ignoreRepoPrefix sched {} repos with
    | Except.error e => Except.error e
    | Except.ok (report, calls) =>
      Except.ok (report, calls, outputFor cfg.outputKind outputFileName report)

/-! ### Well-formed declaration lines

`mkDeclLine` builds a well-formed declaration line with the two attributes in
a chosen order; the extractor claims are stated over these lines. -/

/-- One `key="value"` attribute as characters. -/
def attrChunk (key val : List Char) : List Char :=
  key ++ '=' :: '"' :: val ++ ['"']

/-- A well-formed declaration line with attributes `k₁="v₁" k₂="v₂"` in that
order. -/
def mkDeclLine (k₁ v₁ k₂ v₂ : List Char) : List Char :=
  tagOpen ++ (' ' :: (attrChunk k₁ v₁ ++ (' ' :: (attrChunk k₂ v₂ ++ (' ' :: tagClose)))))

/-- The records one repository contributes to the final report: none when it
is skipped, its extracted records otherwise. -/
def repoChunk (env : Env) (package : String) (ip : Option String)
    (sched : String → List Nat) (repo : Repo) : List RepoPackageReference :=
  if shouldIgnore ip repo.slug then []
  else
    repoRecords env package repo.slug ((env.filePaths repo.slug).toOption.getD [])
      (sched repo.slug)

/-! ### Concrete fixtures -/

/-- A concrete environment: one repository with two listed files, of which
the second fails to fetch. -/
def envW : Env where
  projectRepos := Except.ok [{ slug := "a" }]
  filePaths := fun _ => Except.ok ["f1.csproj", "f2.csproj"]
  fileContent := fun _ f =>
    if f = "f1.csproj" then
      Except.ok { lines := ["<PackageReference Include=\"Foo\" Version=\"1.0\" />"] }
    else Except.error "boom"

/-- A schedule on which the second fetch completes before the first. -/
def schedW : String → List Nat := fun _ => [1, 0]

/-- A console-output configuration targeting package `Foo`. -/
def cfgW : Config where
  package := "Foo"
  ignoreRepoPrefix := none
  outputKind := OutputKind.console
  outputFileName := none

/-- An environment whose repository enumeration fails. -/
def envErr : Env where
  projectRepos := Except.error "down"
  filePaths := fun _ => Except.error "down"
  fileContent := fun _ _ => Except.error "down"

/-- An environment that enumerates one repository but cannot list its
files. -/
def envListErr : Env where
  projectRepos := Except.ok [{ slug := "a" }]
  filePaths := fun _ => Except.error "forbidden"
  fileContent := fun _ _ => Except.error "forbidden"

/-- The configuration that ignores every repository (empty ignore
prefix). -/
def cfgIgnoreAll : Config where
  package := "Foo"
  ignoreRepoPrefix := some ""
  outputKind := OutputKind.console
  outputFileName := none

/-- A text-file output configuration with no explicit file name. -/
def cfgTxt : Config where
  package := "Foo"
  ignoreRepoPrefix := none
  outputKind := OutputKind.txt
  outputFileName := none

/-- The single record `envW` produces. -/
def recW : RepoPackageReference where
  repo := "a"
  file := "f1.csproj"
  reference := { package_name := "Foo", version := "1.0" }

/-- The report `envW` produces. -/
def repW : PackageVersionReport where
  repo_package_references := [recW]

/-- The API-call trace `envW` produces. -/
def callsW : List ApiCall :=
  [ApiCall.listFiles "a", ApiCall.getFile "a" "f1.csproj",
   ApiCall.getFile "a" "f2.csproj"]

/-! ### Parser lemmas -/

/-- Stripping a literal off a list that starts with it leaves the rest. -/
theorem stripLit_append (p cs : List Char) : stripLit p (p ++ cs) = some cs := by
  induction p with
  | nil => rfl
  | cons a ps ih => simp [stripLit, ih]

/-- Stripping a literal fails on a mismatching head character. -/
theorem stripLit_ne (a b : Char) (p cs : List Char) (h : b ≠ a) :
    stripLit (a :: p) (b :: cs) = none := by
  simp [stripLit, h]

/-- Reading a quoted value that contains no quote stops at the closing
quote. -/
theorem takeQuoted_append (v rest : List Char) (hv : '"' ∉ v) :
    takeQuoted (v ++ '"' :: rest) = some (v, rest) := by
  induction v with
  | nil => simp [takeQuoted]
  | cons c cs ih =>
    have hc : ¬c = '"' := fun h => hv (by simp [h])
    have hcs : '"' ∉ cs := fun h => hv (by simp [h])
    simp [takeQuoted, hc, ih hcs]

/-- Skipping spaces stops at a non-space head. -/
theorem skipSpaces_cons_of_ne (c : Char) (cs : List Char) (h : ¬c = ' ') :
    skipSpaces (c :: cs) = c :: cs := by
  simp [skipSpaces, List.dropWhile_cons, h]

/-- Skipping spaces consumes a space head. -/
theorem skipSpaces_cons_space (cs : List Char) :
    skipSpaces (' ' :: cs) = skipSpaces cs := by
  simp [skipSpaces, List.dropWhile_cons]

/-- Parsing an attribute off a line that starts with that attribute captures
its value. -/
theorem parseAttr_chunk (key val rest : List Char) (hv : '"' ∉ val) :
    parseAttr key (attrChunk key val ++ rest) = some (val, rest) := by
  have harr : attrChunk key val ++ rest =
      (key ++ ['=', '"']) ++ (val ++ '"' :: rest) := by
    simp [attrChunk]
  rw [parseAttr, harr, stripLit_append]
  exact takeQuoted_append val rest hv

/-- Parsing the `Include` attribute fails on a line that starts with the
`Version` attribute. -/
theorem parseAttr_include_on_version (val rest : List Char) :
    parseAttr includeKey (attrChunk versionKey val ++ rest) = none := by
  have harr : attrChunk versionKey val ++ rest =
      'V' :: (versionKey.tail ++ '=' :: '"' :: val ++ ['"'] ++ rest) := by
    simp [attrChunk, versionKey, List.cons_append]
  rw [parseAttr, harr]
  rw [show includeKey ++ ['=', '"'] = 'I' :: (includeKey.tail ++ ['=', '"']) from rfl]
  rw [stripLit_ne _ _ _ _ (by decide)]

/-- Skipping spaces leaves a line that starts with the opening tag
unchanged. -/
theorem skipSpaces_tagOpen (X : List Char) :
    skipSpaces (tagOpen ++ X) = tagOpen ++ X := by
  have h : tagOpen ++ X = '<' :: (tagOpen.tail ++ X) := rfl
  rw [h, skipSpaces_cons_of_ne _ _ (by decide)]

/-- Skipping spaces leaves a line that starts with an `Include` attribute
unchanged. -/
theorem skipSpaces_attrInclude (val X : List Char) :
    skipSpaces (attrChunk includeKey val ++ X) = attrChunk includeKey val ++ X := by
  have h : attrChunk includeKey val ++ X =
      'I' :: ((includeKey.tail ++ '=' :: '"' :: val ++ ['"']) ++ X) := by
    simp [attrChunk, includeKey, List.cons_append, List.append_assoc]
  rw [h, skipSpaces_cons_of_ne _ _ (by decide), ← h]

/-- Skipping spaces leaves a line that starts with a `Version` attribute
unchanged. -/
theorem skipSpaces_attrVersion (val X : List Char) :
    skipSpaces (attrChunk versionKey val ++ X) = attrChunk versionKey val ++ X := by
  have h : attrChunk versionKey val ++ X =
      'V' :: ((versionKey.tail ++ '=' :: '"' :: val ++ ['"']) ++ X) := by
    simp [attrChunk, versionKey, List.cons_append, List.append_assoc]
  rw [h, skipSpaces_cons_of_ne _ _ (by decide), ← h]

/-- Finishing a declaration at the standard ` />` tail checks the captured
name and version for emptiness. -/
theorem finishDecl_std (n v : List Char) :
    finishDecl n v (' ' :: tagClose) =
      if n = [] ∨ v = [] then none else some (n, v) := by
  rw [finishDecl, skipSpaces_cons_space]
  rw [show skipSpaces tagClose = tagClose from rfl]
  rw [show stripLit tagClose tagClose = some [] from rfl]
  simp [skipSpaces]

/-- Parsing a well-formed declaration with the `Include` attribute first
captures the name and version, rejecting empty ones. -/
theorem parseDecl_includeFirst (n v : List Char) (hn : '"' ∉ n) (hv : '"' ∉ v) :
    parseDecl (mkDeclLine includeKey n versionKey v) =
      if n = [] ∨ v = [] then none else some (n, v) := by
  simp only [parseDecl, mkDeclLine, skipSpaces_tagOpen, stripLit_append,
    skipSpaces_cons_space, skipSpaces_attrInclude, skipSpaces_attrVersion,
    parseAttr_chunk includeKey n _ hn, parseAttr_chunk versionKey v _ hv,
    finishDecl_std]

/-- Parsing a well-formed declaration with the `Version` attribute first
captures the same name and version. -/
theorem parseDecl_versionFirst (n v : List Char) (hn : '"' ∉ n) (hv : '"' ∉ v) :
    parseDecl (mkDeclLine versionKey v includeKey n) =
      if n = [] ∨ v = [] then none else some (n, v) := by
  simp only [parseDecl, mkDeclLine, skipSpaces_tagOpen, stripLit_append,
    skipSpaces_cons_space, skipSpaces_attrInclude, skipSpaces_attrVersion,
    parseAttr_include_on_version, parseAttr_chunk versionKey v _ hv,
    parseAttr_chunk includeKey n _ hn, finishDecl_std]

/-- A line that contains no opening angle bracket never parses as a
declaration. -/
theorem parseDecl_no_open (line : List Char) (h : '<' ∉ line) :
    parseDecl line = none := by
  rw [parseDecl]
  cases hs : skipSpaces line with
  | nil =>
    rw [show stripLit tagOpen [] = none from rfl]
  | cons c cs =>
    have hmem : c ∈ line := by
      have hsub : skipSpaces line <:+ line := List.dropWhile_suffix _
      exact hsub.subset (hs ▸ List.mem_cons_self c cs)
    have hc : c ≠ '<' := fun hEq => h (hEq ▸ hmem)
    rw [show tagOpen = '<' :: tagOpen.tail from rfl, stripLit_ne _ _ _ _ hc]

/-! ### Join-all barrier lemmas -/

/-- Looking up an index among the completions of a schedule that contains it
recovers that task's result. -/
theorem lookup_completions (f : Nat → α) (sched : List Nat) (i : Nat)
    (h : i ∈ sched) : (completions f sched).lookup i = some (f i) := by
  induction sched with
  | nil => cases h
  | cons j rest ih =>
    by_cases hij : i = j
    · subst hij
      simp [completions, List.lookup]
    · rcases List.mem_cons.mp h with hEq | hmem
      · exact absurd hEq hij
      · have hbeq : (i == j) = false := beq_eq_false_iff_ne.mpr hij
        simpa [completions, List.lookup, hbeq] using ih hmem

/-- With a schedule that covers all task indices, join-all returns every
task's result in issue order — completion order is irrelevant. -/
theorem joinAll_eq_map (f : Nat → α) (n : Nat) (sched : List Nat)
    (h : ∀ i, i < n → i ∈ sched) :
    joinAll f n sched = (List.range n).map fun i => some (f i) := by
  unfold joinAll
  exact List.map_congr_left fun i hi =>
    lookup_completions f sched i (h i (List.mem_range.mp hi))

/-- Indexing a list over the range of its length recovers the list. -/
theorem map_getD_range (l : List α) (d : α) :
    (List.range l.length).map (fun i => l.getD i d) = l := by
  induction l with
  | nil => rfl
  | cons a t ih =>
    rw [List.length_cons, List.range_succ_eq_map, List.map_cons, List.map_map]
    simp only [Function.comp_def, List.getD_cons_zero, List.getD_cons_succ]
    rw [ih]

/-- Under any permutation schedule, the concurrent fetch phase produces the
same files as fetching sequentially in listing order and dropping
failures. -/
theorem fetchAll_of_perm (env : Env) (slug : String) (files : List String)
    (sched : List Nat) (h : sched.Perm (List.range files.length)) :
    fetchAll env slug files sched =
      files.filterMap fun f => (fetchOne env slug f).toOption := by
  unfold fetchAll
  rw [joinAll_eq_map _ _ _ fun i hi => h.mem_iff.mpr (List.mem_range.mpr hi)]
  rw [List.filterMap_map]
  have hfn : ∀ i : Nat,
      (fun o => match o with
        | some (Except.ok f) => some f
        | _ => none) (some (fetchOne env slug (files.getD i ""))) =
      (fetchOne env slug (files.getD i "")).toOption := by
    intro i
    cases fetchOne env slug (files.getD i "") <;> rfl
  calc (List.range files.length).filterMap
        ((fun o => match o with
          | some (Except.ok f) => some f
          | _ => none) ∘ fun i => some (fetchOne env slug (files.getD i "")))
      = (List.range files.length).filterMap
          fun i => (fetchOne env slug (files.getD i "")).toOption := by
        apply List.filterMap_congr
        intro i _
        exact hfn i
    _ = ((List.range files.length).map fun i => files.getD i "").filterMap
          fun f => (fetchOne env slug f).toOption := by
        rw [List.filterMap_map]
        rfl
    _ = files.filterMap fun f => (fetchOne env slug f).toOption := by
        rw [map_getD_range]

/-- Filtering a list down to the elements where a fallible step succeeds
does not change the result of collecting the successes. -/
theorem filterMap_toOption_filter (g : α → Except ε β) (l : List α) :
    (l.filter fun a => (g a).isOk).filterMap (fun a => (g a).toOption) =
      l.filterMap fun a => (g a).toOption := by
  induction l with
  | nil => rfl
  | cons a t ih =>
    cases hg : g a with
    | error e =>
      have h1 : (g a).isOk = false := by rw [hg]; rfl
      have h2 : (g a).toOption = none := by rw [hg]; rfl
      simp only [List.filter_cons, h1, Bool.false_eq_true, if_false, List.filterMap_cons, h2]
      exact ih
    | ok b =>
      have h1 : (g a).isOk = true := by rw [hg]; rfl
      have h2 : (g a).toOption = some b := by rw [hg]; rfl
      simp only [List.filter_cons, h1, if_true, List.filterMap_cons, h2]
      rw [ih]

/-! ### Orchestrator lemmas -/


/-- A successful repository loop extends the initial report with each
repository's records, in enumeration order. -/
theorem processRepos_records (env : Env) (package : String) (ip : Option String)
    (sched : String → List Nat) :
    ∀ (repos : List Repo) (report final : PackageVersionReport) (calls : List ApiCall),
      processRepos env package ip sched report repos = Except.ok (final, calls) →
      final.repo_package_references =
        report.repo_package_references ++
          repos.flatMap (repoChunk env package ip sched) := by
  intro repos
  induction repos with
  | nil =>
    intro report final calls h
    simp only [processRepos, Except.ok.injEq, Prod.mk.injEq] at h
    simp [← h.1]
  | cons repo rest ih =>
    intro report final calls h
    simp only [processRepos] at h
    cases hig : shouldIgnore ip repo.slug with
    | true =>
      simp only [hig, if_true] at h
      have hrecs := ih report final calls h
      simp [List.flatMap_cons, repoChunk, hig, hrecs]
    | false =>
      simp only [hig, Bool.false_eq_true, if_false] at h
      cases hfp : env.filePaths repo.slug with
      | error e => simp [hfp] at h
      | ok files =>
        simp only [hfp] at h
        cases hrec : processRepos env package ip sched
            (report.appendRefs
              (repoRecords env package repo.slug files (sched repo.slug))) rest with
        | error e => simp [hrec] at h
        | ok pr =>
          simp only [hrec, Except.ok.injEq, Prod.mk.injEq] at h
          have hrecs := ih _ pr.1 pr.2 (by rw [hrec])
          simp only [PackageVersionReport.appendRefs] at hrecs
          rw [← h.1, hrecs]
          simp [List.flatMap_cons, repoChunk, hig, hfp, List.append_assoc,
            Except.toOption]

/-- An ignored repository is skipped entirely: processing the list starting
with it is literally processing the rest. -/
theorem processRepos_skip (env : Env) (package p : String)
    (sched : String → List Nat) (report : PackageVersionReport) (repo : Repo)
    (rest : List Repo) (h : startsWithStr repo.slug p = true) :
    processRepos env package (some p) sched report (repo :: rest) =
      processRepos env package (some p) sched report rest := by
  simp [processRepos, shouldIgnore, h]

/-- Every `listFiles` call in a successful run's trace belongs to an
enumerated repository that was not skipped. -/
theorem processRepos_calls (env : Env) (package : String) (ip : Option String)
    (sched : String → List Nat) :
    ∀ (repos : List Repo) (report final : PackageVersionReport) (calls : List ApiCall),
      processRepos env package ip sched report repos = Except.ok (final, calls) →
      ∀ slug, ApiCall.listFiles slug ∈ calls →
        ∃ repo ∈ repos, repo.slug = slug ∧ shouldIgnore ip repo.slug = false := by
  intro repos
  induction repos with
  | nil =>
    intro report final calls h slug hmem
    simp only [processRepos, Except.ok.injEq, Prod.mk.injEq] at h
    rw [← h.2] at hmem
    cases hmem
  | cons repo rest ih =>
    intro report final calls h slug hmem
    simp only [processRepos] at h
    cases hig : shouldIgnore ip repo.slug with
    | true =>
      simp only [hig, if_true] at h
      obtain ⟨r, hr, hs⟩ := ih report final calls h slug hmem
      exact ⟨r, List.mem_cons_of_mem repo hr, hs⟩
    | false =>
      simp only [hig, Bool.false_eq_true, if_false] at h
      cases hfp : env.filePaths repo.slug with
      | error e => simp [hfp] at h
      | ok files =>
        simp only [hfp] at h
        cases hrec : processRepos env package ip sched
            (report.appendRefs
              (repoRecords env package repo.slug files (sched repo.slug))) rest with
        | error e => simp [hrec] at h
        | ok pr =>
          simp only [hrec, Except.ok.injEq, Prod.mk.injEq] at h
          rw [← h.2] at hmem
          rcases List.mem_append.mp hmem with hhead | htail
          · have : slug = repo.slug := by
              rcases List.mem_cons.mp hhead with hEq | hGet
              · exact (ApiCall.listFiles.injEq .. ▸ congrArg id hEq) ▸ (by
                  cases hEq
                  rfl)
              · exfalso
                rcases List.mem_map.mp hGet with ⟨f, _, hf⟩
                cases hf
            exact ⟨repo, List.mem_cons_self repo rest, this.symm, hig⟩
          · obtain ⟨r, hr, hs⟩ := ih _ pr.1 pr.2 (by rw [hrec]) slug htail
            exact ⟨r, List.mem_cons_of_mem repo hr, hs⟩

/-- When every file-listing query succeeds, the repository loop succeeds, no
matter how many file fetches fail. -/
theorem processRepos_isOk (env : Env) (package : String) (ip : Option String)
    (sched : String → List Nat) (hfp : ∀ slug, (env.filePaths slug).isOk = true) :
    ∀ (repos : List Repo) (report : PackageVersionReport),
      (processRepos env package ip sched report repos).isOk = true := by
  intro repos
  induction repos with
  | nil => intro report; rfl
  | cons repo rest ih =>
    intro report
    simp only [processRepos]
    cases hig : shouldIgnore ip repo.slug with
    | true => simpa [hig] using ih report
    | false =>
      simp only [hig, Bool.false_eq_true, if_false]
      cases hfps : env.filePaths repo.slug with
      | error e =>
        have hcontra := hfp repo.slug
        rw [hfps] at hcontra
        exact Bool.noConfusion hcontra
      | ok files =>
        simp only [hfps]
        cases hrec : processRepos env package ip sched
            (report.appendRefs
              (repoRecords env package repo.slug files (sched repo.slug))) rest with
        | error e =>
          have hcontra := ih (report.appendRefs
            (repoRecords env package repo.slug files (sched repo.slug)))
          rw [hrec] at hcontra
          exact Bool.noConfusion hcontra
        | ok pr => rfl

/-- A reached file-listing failure is fatal: if some enumerated repository
is not skipped and its listing fails, the loop returns an error. -/
theorem processRepos_errs_of_listing (env : Env) (package : String)
    (ip : Option String) (sched : String → List Nat) :
    ∀ (repos : List Repo) (report : PackageVersionReport),
      (∃ repo ∈ repos, shouldIgnore ip repo.slug = false ∧
        (env.filePaths repo.slug).isOk = false) →
      (processRepos env package ip sched report repos).isOk = false := by
  intro repos
  induction repos with
  | nil =>
    intro report h
    obtain ⟨repo, hmem, _⟩ := h
    cases hmem
  | cons repo rest ih =>
    intro report h
    simp only [processRepos]
    cases hig : shouldIgnore ip repo.slug with
    | true =>
      simp only [hig, if_true]
      apply ih
      obtain ⟨r, hmem, hr1, hr2⟩ := h
      rcases List.mem_cons.mp hmem with hEq | hmem'
      · rw [hEq] at hr1
        rw [hr1] at hig
        cases hig
      · exact ⟨r, hmem', hr1, hr2⟩
    | false =>
      simp only [hig, Bool.false_eq_true, if_false]
      cases hfps : env.filePaths repo.slug with
      | error e => rfl
      | ok files =>
        simp only [hfps]
        cases hrec : processRepos env package ip sched
            (report.appendRefs
              (repoRecords env package repo.slug files (sched repo.slug))) rest with
        | error e => rfl
        | ok pr =>
          obtain ⟨r, hmem, hr1, hr2⟩ := h
          rcases List.mem_cons.mp hmem with hEq | hmem'
          · rw [hEq] at hr2
            rw [hfps] at hr2
            exact Bool.noConfusion hr2
          · have hcontra := ih (report.appendRefs
              (repoRecords env package repo.slug files (sched repo.slug)))
              ⟨r, hmem', hr1, hr2⟩
            rw [hrec] at hcontra
            exact Bool.noConfusion hcontra

/-- When every enumerated repository is ignored, the loop leaves the report
untouched and issues no API calls. -/
theorem processRepos_all_ignored (env : Env) (package : String)
    (ip : Option String) (sched : String → List Nat) :
    ∀ (repos : List Repo) (report : PackageVersionReport),
      (∀ repo ∈ repos, shouldIgnore ip repo.slug = true) →
      processRepos env package ip sched report repos = Except.ok (report, []) := by
  intro repos
  induction repos with
  | nil => intro report _; rfl
  | cons repo rest ih =>
    intro report h
    have hig := h repo (List.mem_cons_self repo rest)
    simp only [processRepos, hig, if_true]
    exact ih report fun r hr => h r (List.mem_cons_of_mem repo hr)

/-- Every record the per-file pipeline emits carries the target package
name: the name filter runs before aggregation. -/
theorem mem_fileReferences (package slug fname : String) (content : FileContent)
    (r : RepoPackageReference) (h : r ∈ fileReferences package slug fname content) :
    r.reference.package_name = package := by
  simp only [fileReferences, List.mem_map, List.mem_filter] at h
  obtain ⟨pr, ⟨_, hname⟩, hr⟩ := h
  rw [← hr]
  exact of_decide_eq_true hname

/-- Unpacking a successful run: enumeration succeeded, the repository loop
succeeded with the returned report and trace, and the delivered action is
the output dispatch applied to that report. -/
theorem run_eq_ok (env : Env) (cfg : Config) (sched : String → List Nat)
    (report : PackageVersionReport) (calls : List ApiCall) (act : OutputAction)
    (h : run env cfg sched = Except.ok (report, calls, act)) :
    ∃ repos, env.projectRepos = Except.ok repos ∧
      processRepos env cfg.package cfg.ignoreRepoPrefix sched {} repos =
        Except.ok (report, calls) ∧
      act = outputFor cfg.outputKind (cfg.outputFileName.getD "package-version-report")
        report := by
  unfold run at h
  cases hpr : env.projectRepos with
  | error e => rw [hpr] at h; cases h
  | ok repos =>
    rw [hpr] at h
    cases hproc : processRepos env cfg.package cfg.ignoreRepoPrefix sched {} repos with
    | error e => simp [hproc] at h
    | ok pr =>
      obtain ⟨p1, p2⟩ := pr
      simp only [hproc, Except.ok.injEq, Prod.mk.injEq] at h
      obtain ⟨h1, h2, h3⟩ := h
      subst h1
      subst h2
      exact ⟨repos, rfl, hproc, h3.symm⟩

/-- The output action always carries the rendered report, whatever the
output kind. -/
theorem outputFor_text (k : OutputKind) (name : String) (rep : PackageVersionReport) :
    (outputFor k name rep).text = renderReport rep := by
  cases k <;> rfl

/-- Every string starts with the empty prefix. -/
theorem startsWithStr_empty (s : String) : startsWithStr s "" = true := by
  unfold startsWithStr
  rw [show ("" : String).data = [] from rfl]
  cases s.data <;> rfl

/-- Enumeration failure aborts the run before any processing or output. -/
theorem run_error_of_enum (env : Env) (cfg : Config) (sched : String → List Nat)
    (e : String) (h : env.projectRepos = Except.error e) :
    run env cfg sched = Except.error e := by
  unfold run
  rw [h]

/-- Every record a repository chunk contributes carries the target package
name. -/
theorem mem_repoChunk (env : Env) (package : String) (ip : Option String)
    (sched : String → List Nat) (repo : Repo) (r : RepoPackageReference)
    (h : r ∈ repoChunk env package ip sched repo) :
    r.reference.package_name = package := by
  unfold repoChunk at h
  by_cases hig : shouldIgnore ip repo.slug = true
  · rw [if_pos hig] at h
    cases h
  · rw [if_neg hig] at h
    unfold repoRecords at h
    obtain ⟨file, _, hr⟩ := List.mem_flatMap.mp h
    exact mem_fileReferences package repo.slug file.name file.content r hr


/-! ### The claims -/

/-- C1: for any completion order of the per-repository concurrent fetch
phase (any permutation schedule), the records a repository contributes are
exactly those obtained by fetching and processing only the succeeding files
sequentially, whichever files failed; and a run whose listings all succeed
completes successfully no matter which file fetches fail. -/
theorem claim_C1 :
    (∀ (env : Env) (package slug : String) (files : List String) (sched : List Nat),
      sched.Perm (List.range files.length) →
      repoRecords env package slug files sched =
        ((files.filter fun f => (fetchOne env slug f).isOk).filterMap
            fun f => (fetchOne env slug f).toOption).flatMap
          fun file => fileReferences package slug file.name file.content) ∧
    (∀ (env : Env) (cfg : Config) (sched : String → List Nat) (repos : List Repo),
      env.projectRepos = Except.ok repos →
      (∀ slug, (env.filePaths slug).isOk = true) →
      (run env cfg sched).isOk = true) := by
  constructor
  · intro env package slug files sched hperm
    unfold repoRecords
    rw [fetchAll_of_perm env slug files sched hperm, filterMap_toOption_filter]
  · intro env cfg sched repos hrepos hfp
    unfold run
    simp only [hrepos]
    have h := processRepos_isOk env cfg.package cfg.ignoreRepoPrefix sched hfp repos {}
    cases hproc : processRepos env cfg.package cfg.ignoreRepoPrefix sched {} repos with
    | error e =>
      rw [hproc] at h
      exact Bool.noConfusion h
    | ok pr =>
      obtain ⟨p1, p2⟩ := pr
      rfl

/-- Witness for C1 at a concrete repository with two files, the second of
which fails, under the reversed completion schedule. -/
theorem claim_C1_witness :
    (repoRecords envW "Foo" "a" ["f1.csproj", "f2.csproj"] [1, 0] =
      ((["f1.csproj", "f2.csproj"].filter fun f => (fetchOne envW "a" f).isOk).filterMap
          fun f => (fetchOne envW "a" f).toOption).flatMap
        fun file => fileReferences "Foo" "a" file.name file.content) ∧
    (run envW cfgW schedW).isOk = true :=
  ⟨claim_C1.1 envW "Foo" "a" ["f1.csproj", "f2.csproj"] [1, 0] (by decide),
   claim_C1.2 envW cfgW schedW [{ slug := "a" }] rfl fun _ => rfl⟩

/-- C2: a repository whose slug starts with the configured ignore prefix is
skipped entirely — processing it is literally processing the remaining
repositories — and every file-listing call in a successful run's trace
belongs to an enumerated, non-skipped repository. -/
theorem claim_C2 :
    (∀ (env : Env) (package p : String) (sched : String → List Nat)
        (report : PackageVersionReport) (repo : Repo) (rest : List Repo),
      startsWithStr repo.slug p = true →
      processRepos env package (some p) sched report (repo :: rest) =
        processRepos env package (some p) sched report rest) ∧
    (∀ (env : Env) (package : String) (ip : Option String)
        (sched : String → List Nat) (repos : List Repo)
        (report final : PackageVersionReport) (calls : List ApiCall),
      processRepos env package ip sched report repos = Except.ok (final, calls) →
      ∀ slug, ApiCall.listFiles slug ∈ calls →
        ∃ repo ∈ repos, repo.slug = slug ∧ shouldIgnore ip repo.slug = false) :=
  ⟨processRepos_skip, fun env package ip sched repos =>
    processRepos_calls env package ip sched repos⟩

/-- Witness for C2: the repository `ig-x` is skipped under ignore prefix
`ig`, and the trace of a run over the single repository `a` lists files only
for `a`. -/
theorem claim_C2_witness :
    (processRepos envW "Foo" (some "ig") schedW {} [{ slug := "ig-x" }] =
      processRepos envW "Foo" (some "ig") schedW {} []) ∧
    ∃ repo ∈ [({ slug := "a" } : Repo)], repo.slug = "a" ∧
      shouldIgnore none repo.slug = false :=
  ⟨claim_C2.1 envW "Foo" "ig" schedW {} { slug := "ig-x" } [] (by decide),
   claim_C2.2 envW "Foo" none schedW [{ slug := "a" }] {} repW callsW rfl "a"
     (List.mem_cons_self _ _)⟩

/-- C3: every record a successful run's report contains carries exactly the
package name the run was invoked for — the filter runs before
aggregation. -/
theorem claim_C3 (env : Env) (cfg : Config) (sched : String → List Nat)
    (report : PackageVersionReport) (calls : List ApiCall) (act : OutputAction)
    (h : run env cfg sched = Except.ok (report, calls, act)) :
    ∀ r ∈ report.repo_package_references, r.reference.package_name = cfg.package := by
  intro r hr
  obtain ⟨repos, _, hproc, _⟩ := run_eq_ok env cfg sched report calls act h
  have hrecs := processRepos_records env cfg.package cfg.ignoreRepoPrefix sched repos
    {} report calls hproc
  rw [hrecs] at hr
  simp only [List.nil_append] at hr
  obtain ⟨repo, _, hchunk⟩ := List.mem_flatMap.mp hr
  exact mem_repoChunk env cfg.package cfg.ignoreRepoPrefix sched repo r hchunk

/-- Witness for C3 at the concrete run over `envW`: its single record names
package `Foo`. -/
theorem claim_C3_witness : recW.reference.package_name = cfgW.package :=
  claim_C3 envW cfgW schedW repW callsW
    (OutputAction.consolePrint (renderReport repW)) rfl recW (List.mem_cons_self _ _)

/-- C4: appending extends the stored record list at its end without
reordering or deduplication; a successful run's final report is exactly the
concatenation of each repository's records in enumeration order (files in
listing order, lines in file order); and rendering depends only on the
stored records, so re-rendering an unchanged report reproduces the same
output. -/
theorem claim_C4 :
    (∀ (rep : PackageVersionReport) (rs : List RepoPackageReference),
      (rep.appendRefs rs).repo_package_references =
        rep.repo_package_references ++ rs) ∧
    (∀ (env : Env) (package : String) (ip : Option String)
        (sched : String → List Nat) (repos : List Repo)
        (final : PackageVersionReport) (calls : List ApiCall),
      processRepos env package ip sched {} repos = Except.ok (final, calls) →
      final.repo_package_references =
        repos.flatMap (repoChunk env package ip sched)) ∧
    (∀ rep₁ rep₂ : PackageVersionReport,
      rep₁.repo_package_references = rep₂.repo_package_references →
      renderReport rep₁ = renderReport rep₂) := by
  refine ⟨fun rep rs => rfl, ?_, ?_⟩
  · intro env package ip sched repos final calls h
    have hrecs := processRepos_records env package ip sched repos {} final calls h
    simpa using hrecs
  · intro rep₁ rep₂ h
    unfold renderReport
    rw [h]

/-- Witness for C4 at the concrete run over `envW`: one repository, one
surviving file, one record. -/
theorem claim_C4_witness :
    (repW.appendRefs [recW]).repo_package_references =
      repW.repo_package_references ++ [recW] ∧
    repW.repo_package_references =
      [({ slug := "a" } : Repo)].flatMap (repoChunk envW "Foo" none schedW) ∧
    renderReport repW = renderReport { repo_package_references := [recW] } :=
  ⟨(claim_C4.1 repW [recW] : _),
   claim_C4.2.1 envW "Foo" none schedW [{ slug := "a" }] repW callsW rfl,
   claim_C4.2.2 repW { repo_package_references := [recW] } rfl⟩

/-- C5: a repository-enumeration failure propagates out of the run
unchanged, before any report or output is produced; and a reached
file-listing failure makes the whole run fail — there is no
partial-enumeration mode. -/
theorem claim_C5 :
    (∀ (env : Env) (cfg : Config) (sched : String → List Nat) (e : String),
      env.projectRepos = Except.error e → run env cfg sched = Except.error e) ∧
    (∀ (env : Env) (cfg : Config) (sched : String → List Nat) (repos : List Repo),
      env.projectRepos = Except.ok repos →
      (∃ repo ∈ repos, shouldIgnore cfg.ignoreRepoPrefix repo.slug = false ∧
        (env.filePaths repo.slug).isOk = false) →
      (run env cfg sched).isOk = false) := by
  constructor
  · intro env cfg sched e h
    exact run_error_of_enum env cfg sched e h
  · intro env cfg sched repos hrepos hex
    unfold run
    simp only [hrepos]
    have h := processRepos_errs_of_listing env cfg.package cfg.ignoreRepoPrefix sched
      repos {} hex
    cases hproc : processRepos env cfg.package cfg.ignoreRepoPrefix sched {} repos with
    | error e => rfl
    | ok pr =>
      rw [hproc] at h
      exact Bool.noConfusion h

/-- Witness for C5: the enumeration failure of `envErr` propagates, and the
listing failure of `envListErr` fails the run. -/
theorem claim_C5_witness :
    run envErr cfgW schedW = Except.error "down" ∧
    (run envListErr cfgW schedW).isOk = false :=
  ⟨claim_C5.1 envErr cfgW schedW "down" rfl,
   claim_C5.2 envListErr cfgW schedW [{ slug := "a" }] rfl
     ⟨{ slug := "a" }, List.mem_cons_self _ _, rfl, rfl⟩⟩

/-- C6: the extractor returns exactly the declared name and version for
every well-formed declaration, whichever attribute comes first; an empty
name or empty version, or a line without the declaration construct, yields
no match. -/
theorem claim_C6 :
    (∀ n v : List Char, n ≠ [] → v ≠ [] → '"' ∉ n → '"' ∉ v →
      PackageReference.tryFrom (String.mk (mkDeclLine includeKey n versionKey v)) =
          some { package_name := String.mk n, version := String.mk v } ∧
        PackageReference.tryFrom (String.mk (mkDeclLine versionKey v includeKey n)) =
          some { package_name := String.mk n, version := String.mk v }) ∧
    (∀ v : List Char, '"' ∉ v →
      PackageReference.tryFrom (String.mk (mkDeclLine includeKey [] versionKey v)) =
        none) ∧
    (∀ n : List Char, '"' ∉ n →
      PackageReference.tryFrom (String.mk (mkDeclLine includeKey n versionKey [])) =
        none) ∧
    (∀ line : String, '<' ∉ line.data → PackageReference.tryFrom line = none) := by
  refine ⟨?_, ?_, ?_, ?_⟩
  · intro n v hn hv hqn hqv
    have hnv : ¬(n = [] ∨ v = []) := by
      rintro (h | h)
      exacts [hn h, hv h]
    constructor
    · unfold PackageReference.tryFrom
      rw [show (String.mk (mkDeclLine includeKey n versionKey v)).data =
          mkDeclLine includeKey n versionKey v from rfl]
      rw [parseDecl_includeFirst n v hqn hqv, if_neg hnv]
      rfl
    · unfold PackageReference.tryFrom
      rw [show (String.mk (mkDeclLine versionKey v includeKey n)).data =
          mkDeclLine versionKey v includeKey n from rfl]
      rw [parseDecl_versionFirst n v hqn hqv, if_neg hnv]
      rfl
  · intro v hqv
    unfold PackageReference.tryFrom
    rw [show (String.mk (mkDeclLine includeKey [] versionKey v)).data =
        mkDeclLine includeKey [] versionKey v from rfl]
    rw [parseDecl_includeFirst [] v (by simp) hqv, if_pos (Or.inl rfl)]
    rfl
  · intro n hqn
    unfold PackageReference.tryFrom
    rw [show (String.mk (mkDeclLine includeKey n versionKey [])).data =
        mkDeclLine includeKey n versionKey [] from rfl]
    rw [parseDecl_includeFirst n [] hqn (by simp), if_pos (Or.inr rfl)]
    rfl
  · intro line h
    unfold PackageReference.tryFrom
    rw [parseDecl_no_open line.data h]
    rfl

/-- Witness for C6 at the concrete declaration `Include="Foo"
Version="1.2.3"` in both attribute orders, with an empty name, with an empty
version, and at a construct-free line. -/
theorem claim_C6_witness :
    PackageReference.tryFrom
        (String.mk (mkDeclLine includeKey "Foo".data versionKey "1.2.3".data)) =
      some { package_name := "Foo", version := "1.2.3" } ∧
    PackageReference.tryFrom
        (String.mk (mkDeclLine versionKey "1.2.3".data includeKey "Foo".data)) =
      some { package_name := "Foo", version := "1.2.3" } ∧
    PackageReference.tryFrom
        (String.mk (mkDeclLine includeKey [] versionKey "1.2.3".data)) = none ∧
    PackageReference.tryFrom
        (String.mk (mkDeclLine includeKey "Foo".data versionKey [])) = none ∧
    PackageReference.tryFrom "hello world" = none := by
  obtain ⟨ha, hb⟩ := claim_C6.1 "Foo".data "1.2.3".data (by decide) (by decide)
    (by decide) (by decide)
  exact ⟨ha, hb, claim_C6.2.1 "1.2.3".data (by decide),
    claim_C6.2.2.1 "Foo".data (by decide),
    claim_C6.2.2.2 "hello world" (by decide)⟩

/-- C7: the delivered output matches the requested output kind: console mode
prints the rendered report, txt mode writes it to the base name with
extension `.txt`, md mode with extension `.md` — the extension is chosen by
the output dispatch itself. -/
theorem claim_C7 (env : Env) (cfg : Config) (sched : String → List Nat)
    (report : PackageVersionReport) (calls : List ApiCall) (act : OutputAction)
    (h : run env cfg sched = Except.ok (report, calls, act)) :
    (cfg.outputKind = OutputKind.console →
      act = OutputAction.consolePrint (renderReport report)) ∧
    (cfg.outputKind = OutputKind.txt →
      act = OutputAction.writeFile
        ((cfg.outputFileName.getD "package-version-report") ++ ".txt")
        (renderReport report)) ∧
    (cfg.outputKind = OutputKind.md →
      act = OutputAction.writeFile
        ((cfg.outputFileName.getD "package-version-report") ++ ".md")
        (renderReport report)) := by
  obtain ⟨repos, _, _, hact⟩ := run_eq_ok env cfg sched report calls act h
  refine ⟨fun hk => ?_, fun hk => ?_, fun hk => ?_⟩ <;> rw [hact, hk] <;> rfl

/-- Witness for C7 at the concrete console-mode run over `envW`. -/
theorem claim_C7_witness :
    OutputAction.consolePrint "a | f1.csproj | Foo | 1.0" =
      OutputAction.consolePrint (renderReport repW) :=
  (claim_C7 envW cfgW schedW repW callsW
    (OutputAction.consolePrint "a | f1.csproj | Foo | 1.0") rfl).1 rfl

/-- C8: with the empty string configured as ignore prefix, every repository
slug starts with it, so every repository is skipped and the run ends with an
empty report and an empty call trace. -/
theorem claim_C8 (env : Env) (cfg : Config) (sched : String → List Nat)
    (repos : List Repo) (hip : cfg.ignoreRepoPrefix = some "")
    (hrepos : env.projectRepos = Except.ok repos) :
    (∀ repo ∈ repos, startsWithStr repo.slug "" = true) ∧
    run env cfg sched =
      Except.ok ({}, [],
        outputFor cfg.outputKind (cfg.outputFileName.getD "package-version-report")
          {}) := by
  refine ⟨fun repo _ => startsWithStr_empty repo.slug, ?_⟩
  unfold run
  simp only [hrepos]
  rw [processRepos_all_ignored env cfg.package cfg.ignoreRepoPrefix sched repos {}
    fun repo _ => by rw [hip]; simp [shouldIgnore, startsWithStr_empty]]

/-- Witness for C8 at the one-repository environment `envW` with the
empty ignore prefix. -/
theorem claim_C8_witness :
    startsWithStr "a" "" = true ∧
    run envW cfgIgnoreAll schedW =
      Except.ok ({}, [],
        outputFor cfgIgnoreAll.outputKind
          (cfgIgnoreAll.outputFileName.getD "package-version-report") {}) :=
  ⟨(claim_C8 envW cfgIgnoreAll schedW [{ slug := "a" }] rfl rfl).1 { slug := "a" }
     (List.mem_cons_self _ _),
   (claim_C8 envW cfgIgnoreAll schedW [{ slug := "a" }] rfl rfl).2⟩

/-- C9: the delivered text is independent of the output kind — two
successful runs differing only in the output kind deliver the same rendered
report text. -/
theorem claim_C9 (env : Env) (cfg : Config) (sched : String → List Nat)
    (k₁ k₂ : OutputKind) (r₁ r₂ : PackageVersionReport) (c₁ c₂ : List ApiCall)
    (a₁ a₂ : OutputAction)
    (h₁ : run env { cfg with outputKind := k₁ } sched = Except.ok (r₁, c₁, a₁))
    (h₂ : run env { cfg with outputKind := k₂ } sched = Except.ok (r₂, c₂, a₂)) :
    a₁.text = a₂.text := by
  obtain ⟨repos₁, hrepos₁, hproc₁, hact₁⟩ := run_eq_ok _ _ _ _ _ _ h₁
  obtain ⟨repos₂, hrepos₂, hproc₂, hact₂⟩ := run_eq_ok _ _ _ _ _ _ h₂
  rw [hrepos₁] at hrepos₂
  injection hrepos₂ with hre
  subst hre
  have hproc₁' : processRepos env cfg.package cfg.ignoreRepoPrefix sched {} repos₁ =
      Except.ok (r₁, c₁) := hproc₁
  have hproc₂' : processRepos env cfg.package cfg.ignoreRepoPrefix sched {} repos₁ =
      Except.ok (r₂, c₂) := hproc₂
  rw [hproc₁'] at hproc₂'
  injection hproc₂' with hpc
  have hr : r₁ = r₂ := congrArg Prod.fst hpc
  rw [hact₁, hact₂, outputFor_text, outputFor_text, hr]

/-- Witness for C9: the console run and the txt run over `envW` carry the
same text. -/
theorem claim_C9_witness :
    (OutputAction.consolePrint (renderReport repW)).text =
      (OutputAction.writeFile "package-version-report.txt"
        (renderReport repW)).text :=
  claim_C9 envW cfgW schedW OutputKind.console OutputKind.txt repW repW callsW
    callsW (OutputAction.consolePrint (renderReport repW))
    (OutputAction.writeFile "package-version-report.txt" (renderReport repW))
    rfl rfl

/-- C10: when no output file base name is supplied, the default base name
`package-version-report` is used, so txt mode writes
`package-version-report.txt` and md mode writes `package-version-report.md`. -/
theorem claim_C10 (env : Env) (cfg : Config) (sched : String → List Nat)
    (report : PackageVersionReport) (calls : List ApiCall) (act : OutputAction)
    (h0 : cfg.outputFileName = none)
    (h : run env cfg sched = Except.ok (report, calls, act)) :
    (cfg.outputKind = OutputKind.txt →
      act = OutputAction.writeFile "package-version-report.txt"
        (renderReport report)) ∧
    (cfg.outputKind = OutputKind.md →
      act = OutputAction.writeFile "package-version-report.md"
        (renderReport report)) := by
  obtain ⟨repos, _, _, hact⟩ := run_eq_ok env cfg sched report calls act h
  rw [h0] at hact
  refine ⟨fun hk => ?_, fun hk => ?_⟩ <;> rw [hact, hk] <;> rfl

/-- Witness for C10 at the concrete txt-mode run over `envW` with no file
name configured. -/
theorem claim_C10_witness :
    OutputAction.writeFile "package-version-report.txt" "a | f1.csproj | Foo | 1.0" =
      OutputAction.writeFile "package-version-report.txt" (renderReport repW) :=
  (claim_C10 envW cfgTxt schedW repW callsW
    (OutputAction.writeFile "package-version-report.txt" "a | f1.csproj | Foo | 1.0")
    rfl rfl).1 rfl
